import Mathlib

/-!
Shallow embedding of the tensor utility functions of `utils.py`
(`get_positional_encoding`, `get_look_ahead_mask`, `rel_shift`,
`cache_memory`) and proofs of the specified properties.

Tensors are embedded as nested lists: a 2D tensor is a `List (List α)`
(rows of entries), a 3D tensor `[batch, time, hidden]` is a
`List (List (List α))`, and a 4D tensor is one level deeper.  Integer
entries (`Int`) are used wherever the properties at stake are exact
shape/value facts independent of the float entry type; the positional
encoding, whose contract genuinely involves `sin`/`cos`, is embedded
over `ℝ`.
-/

/-- Shape predicate for a 2D tensor: `m` rows, each of length `n`. -/
def isShape2 {α : Type} (t : List (List α)) (m n : ℕ) : Prop :=
  t.length = m ∧ ∀ row ∈ t, row.length = n

/-- Shape predicate for a 3D tensor `[b, n, h]`. -/
def isShape3 {α : Type} (t : List (List (List α))) (b n h : ℕ) : Prop :=
  t.length = b ∧ ∀ M ∈ t, isShape2 M n h

/-- Shape predicate for a 4D tensor `[b, hd, q, r]`. -/
def isShape4 {α : Type} (t : List (List (List (List α)))) (b hd q r : ℕ) : Prop :=
  t.length = b ∧ ∀ u ∈ t, isShape3 u hd q r

instance {α : Type} (t : List (List α)) (m n : ℕ) : Decidable (isShape2 t m n) := by
  unfold isShape2; infer_instance

instance {α : Type} (t : List (List (List α))) (b n h : ℕ) : Decidable (isShape3 t b n h) := by
  unfold isShape3; infer_instance

instance {α : Type} (t : List (List (List (List α)))) (b hd q r : ℕ) :
    Decidable (isShape4 t b hd q r) := by
  unfold isShape4; infer_instance

/-! ### `cache_memory`

Source:
```
if m_seq_len is None:
  m_seq_len = tf.shape(memory)[1]
new_memory = tf.stop_gradient(
    tf.concat([memory, embeddings], axis=1)[:, -m_seq_len:])
```
`tf.concat(..., axis=1)` on `[batch, time, hidden]` tensors appends the
time axes batch-row by batch-row.  The slice `[:, -m:]` follows Python
negative-index slicing: for `m > 0` it keeps the last `min(m, len)` time
steps, and for `m = 0` the start index `-0` is `0`, so the whole time
axis is kept.  `tf.stop_gradient` is the identity on values.
-/

/-- `tf.concat([x, y], axis=1)` on 3D `[batch, time, hidden]` tensors. -/
def concatTime {α : Type} (x y : List (List (List α))) : List (List (List α)) :=
  List.zipWith (· ++ ·) x y

/-- Python slice `l[-m:]`: for `m = 0` the start index `-0` is `0` (whole
list); otherwise the last `min(m, l.length)` elements. -/
def lastSlice {α : Type} (m : ℕ) (l : List α) : List α :=
  if m = 0 then l else l.drop (l.length - m)

/-- `cache_memory(memory, embeddings, m_seq_len)` of `utils.py` on value
tensors (`tf.stop_gradient` is the identity on forward values).
`none` models the Python default `m_seq_len=None`, which becomes
`tf.shape(memory)[1]`, the time-length of `memory`. -/
def cache_memory {α : Type} (memory embeddings : List (List (List α)))
    (mSeqLen : Option ℕ) : List (List (List α)) :=
  let m := mSeqLen.getD ((memory.getD 0 []).length)
  (concatTime memory embeddings).map (lastSlice m)

/-- Forward-mode gradient semantics of `tf.stop_gradient` on a 3D tensor
of dual numbers `(value, tangent)`: the value passes through unchanged
and the tangent is zeroed. -/
def stopGradientDual (t : List (List (List (Int × Int)))) :
    List (List (List (Int × Int))) :=
  t.map (fun M => M.map (fun row => row.map (fun p => (p.1, (0 : Int)))))

/-- `cache_memory` on dual-number tensors, making the `tf.stop_gradient`
call explicit: concatenation and slicing act entrywise on dual numbers,
and the final `stop_gradient` zeroes every tangent. -/
def cacheMemoryDual (memory embeddings : List (List (List (Int × Int))))
    (mSeqLen : Option ℕ) : List (List (List (Int × Int))) :=
  let m := mSeqLen.getD ((memory.getD 0 []).length)
  stopGradientDual ((concatTime memory embeddings).map (lastSlice m))

/-- Spec-side phrase "the last `m` time steps" of a time axis. -/
def lastSteps {α : Type} (m : ℕ) (l : List α) : List α :=
  l.drop (l.length - m)

/-! ### `get_look_ahead_mask`

Source:
```
mask = tf.ones([q_seq_len, q_seq_len])
mask_u = tf.linalg.band_part(mask, 0, -1)
mask_dia = tf.linalg.band_part(mask, 0, 0)
mask_pad = tf.zeros([q_seq_len, m_seq_len])
look_ahead_mask = tf.concat([mask_pad, mask_u - mask_dia], 1)
look_ahead_mask = look_ahead_mask[tf.newaxis, tf.newaxis, :, :]
```
-/

/-- `tf.linalg.band_part(M, num_lower, num_upper)`: keeps entry `(i, j)`
iff `(num_lower < 0 ∨ i - j ≤ num_lower) ∧ (num_upper < 0 ∨ j - i ≤ num_upper)`,
zeroing everything else (the TF definition of the in-band condition). -/
def bandPart (numLower numUpper : Int) (M : List (List Int)) : List (List Int) :=
  (List.range M.length).map (fun (i : ℕ) =>
    (List.range ((M.getD i []).length)).map (fun (j : ℕ) =>
      if (numLower < 0 ∨ (i : Int) - (j : Int) ≤ numLower) ∧
         (numUpper < 0 ∨ (j : Int) - (i : Int) ≤ numUpper)
      then (M.getD i []).getD j 0 else 0))

/-- `tf.ones([q, r])`. -/
def onesMat (q r : ℕ) : List (List Int) :=
  List.replicate q (List.replicate r 1)

/-- `tf.zeros([q, r])`. -/
def zerosMat (q r : ℕ) : List (List Int) :=
  List.replicate q (List.replicate r 0)

/-- Elementwise matrix subtraction (`mask_u - mask_dia`). -/
def matSub (A B : List (List Int)) : List (List Int) :=
  List.zipWith (List.zipWith (· - ·)) A B

/-- `tf.concat([A, B], 1)` on 2D tensors: row-wise column concatenation. -/
def concatCols (A B : List (List Int)) : List (List Int) :=
  List.zipWith (· ++ ·) A B

/-- `get_look_ahead_mask(q_seq_len, m_seq_len)` of `utils.py`, the two
trailing `tf.newaxis` wraps giving the two leading singleton dims. -/
def get_look_ahead_mask (qSeqLen mSeqLen : ℕ) : List (List (List (List Int))) :=
  let mask := onesMat qSeqLen qSeqLen
  let maskU := bandPart 0 (-1) mask
  let maskDia := bandPart 0 0 mask
  let maskPad := zerosMat qSeqLen mSeqLen
  [[concatCols maskPad (matSub maskU maskDia)]]

/-! ### `rel_shift`

Source:
```
shape = tf.shape(inputs)
padded = tf.pad(inputs, [[0, 0], [0, 0], [0, 0], [1, 0]])
reshaped = tf.reshape(padded, [shape[0], shape[1], shape[3] + 1, shape[2]])
sliced = reshaped[:, :, 1:]
outputs = tf.reshape(sliced, shape)
```
The pad, both reshapes and the slice leave the two leading axes
untouched, so the whole operation acts independently on each innermost
`[q, r]` slice; `rel_shift` below maps the per-slice operation over the
batch and head axes.  `tf.reshape` reinterprets the row-major flat
buffer with the new row length, which `reshapeRows` renders by flat
indexing. -/

/-- `tf.reshape` of a flat row-major buffer into `rows × cols`
(entry `(i, j)` is flat element `i * cols + j`). -/
def reshapeRows (rows cols : ℕ) (flat : List Int) : List (List Int) :=
  (List.range rows).map (fun i =>
    (List.range cols).map (fun j => flat.getD (i * cols + j) 0))

/-- The action of `rel_shift` on one innermost `[q, r]` slice: prepend a
zero column (`tf.pad` with `[1, 0]` on the last axis), reshape the flat
buffer to `[r + 1, q]`, drop the first row (`[1:]`), reshape back to
`[q, r]`. -/
def relShiftSlice (M : List (List Int)) : List (List Int) :=
  let q := M.length
  let r := (M.getD 0 []).length
  let padded := M.map (fun row => (0 : Int) :: row)
  let reshaped := reshapeRows (r + 1) q padded.flatten
  let sliced := reshaped.drop 1
  reshapeRows q r sliced.flatten

/-- `rel_shift(inputs)` of `utils.py` on a 4D `[batch, heads, q, r]`
tensor. -/
def rel_shift (t : List (List (List (List Int)))) : List (List (List (List Int))) :=
  t.map (fun heads => heads.map relShiftSlice)

/-- The claim's description of the per-slice mapping, rendered directly
as flat-buffer index arithmetic: output entry `(i, j)` is element
`q + i * r + j` of the zero-column-padded buffer read as rows of length
`r + 1`, i.e. `0` when `(q + i * r + j) % (r + 1) = 0` and otherwise the
input entry at row `(q + i * r + j) / (r + 1)`, column
`(q + i * r + j) % (r + 1) - 1`. -/
def relShiftSpecSlice (q r : ℕ) (M : List (List Int)) : List (List Int) :=
  (List.range q).map (fun i =>
    (List.range r).map (fun j =>
      let k := q + i * r + j
      if k % (r + 1) = 0 then 0
      else (M.getD (k / (r + 1)) []).getD (k % (r + 1) - 1) 0))

/-! ### `get_positional_encoding`

Source:
```
distances = tf.range(seq_len - 1, -1, -1.0)
inverse_frequencies = 1 / (10000 ** (tf.range(0, hidden_size, 2.0) / hidden_size))
positional_encoding = tf.einsum('i,j->ij', distances, inverse_frequencies)
positional_encoding = tf.concat([tf.sin(positional_encoding),
                                 tf.cos(positional_encoding)], axis=1)
```
`tf.range(seq_len - 1, -1, -1.0)` is `[seq_len - 1, ..., 1, 0]`
(`seq_len` elements); `tf.range(0, hidden_size, 2.0)` is
`[0, 2, ...]` with `⌈hidden_size / 2⌉ = (hidden_size + 1) / 2` elements,
so element `j` is `2 * j`.  The einsum is the outer product. -/

/-- `distances`: the float list `[seq_len - 1, ..., 1, 0]`. -/
def distancesList (seqLen : ℕ) : List ℝ :=
  (List.range seqLen).map (fun (i : ℕ) => (seqLen : ℝ) - 1 - (i : ℝ))

/-- `inverse_frequencies`: element `j` is `1 / 10000 ^ (2 j / hidden_size)`
for `j < ⌈hidden_size / 2⌉`. -/
noncomputable def inverseFrequencies (hiddenSize : ℕ) : List ℝ :=
  (List.range ((hiddenSize + 1) / 2)).map
    (fun (j : ℕ) => 1 / (10000 : ℝ) ^ ((2 * (j : ℝ)) / (hiddenSize : ℝ)))

/-- The outer product `angle[i, j] = distances[i] * inverse_frequencies[j]`
(the `tf.einsum('i,j->ij', ...)` call). -/
noncomputable def anglesMat (seqLen hiddenSize : ℕ) : List (List ℝ) :=
  (distancesList seqLen).map (fun d =>
    (inverseFrequencies hiddenSize).map (fun f => d * f))

/-- `get_positional_encoding(seq_len, hidden_size)` of `utils.py`:
column-wise concatenation of `sin` and `cos` of the angle matrix. -/
noncomputable def get_positional_encoding (seqLen hiddenSize : ℕ) : List (List ℝ) :=
  List.zipWith (· ++ ·)
    ((anglesMat seqLen hiddenSize).map (List.map Real.sin))
    ((anglesMat seqLen hiddenSize).map (List.map Real.cos))

/-! ### Indexing helper lemmas -/

lemma getD_range_map {α : Type} {n i : ℕ} (f : ℕ → α) (d : α) (h : i < n) :
    ((List.range n).map f).getD i d = f i := by
  rw [List.getD_eq_getElem?_getD, List.getElem?_map, List.getElem?_range h]
  rfl

lemma getD_replicate {α : Type} {n i : ℕ} (a d : α) (h : i < n) :
    (List.replicate n a).getD i d = a := by
  rw [List.getD_eq_getElem?_getD, List.getElem?_replicate, if_pos h, Option.getD_some]

lemma getD_map_of_lt {α β : Type} (f : α → β) {l : List α} {i : ℕ} (d : β) (e : α)
    (h : i < l.length) : (l.map f).getD i d = f (l.getD i e) := by
  rw [List.getD_eq_getElem?_getD, List.getElem?_map, List.getElem?_eq_getElem h,
    List.getD_eq_getElem l e h]
  rfl

lemma getD_append_left {α : Type} {l₁ l₂ : List α} {i : ℕ} (d : α) (h : i < l₁.length) :
    (l₁ ++ l₂).getD i d = l₁.getD i d := by
  rw [List.getD_eq_getElem?_getD, List.getElem?_append, if_pos h, ← List.getD_eq_getElem?_getD]

lemma getD_append_right {α : Type} {l₁ l₂ : List α} {i : ℕ} (d : α) (h : l₁.length ≤ i) :
    (l₁ ++ l₂).getD i d = l₂.getD (i - l₁.length) d := by
  rw [List.getD_eq_getElem?_getD, List.getElem?_append, if_neg (by omega),
    ← List.getD_eq_getElem?_getD]

lemma getD_zipWith {α β γ : Type} (f : α → β → γ) {l₁ : List α} {l₂ : List β} {i : ℕ}
    (d₁ : α) (d₂ : β) (d : γ) (h₁ : i < l₁.length) (h₂ : i < l₂.length) :
    (List.zipWith f l₁ l₂).getD i d = f (l₁.getD i d₁) (l₂.getD i d₂) := by
  rw [List.getD_eq_getElem?_getD, List.getElem?_zipWith, List.getElem?_eq_getElem h₁,
    List.getElem?_eq_getElem h₂]
  rw [List.getD_eq_getElem l₁ d₁ h₁, List.getD_eq_getElem l₂ d₂ h₂]
  rfl

lemma getD_drop {α : Type} (l : List α) (i j : ℕ) (d : α) :
    (l.drop i).getD j d = l.getD (i + j) d := by
  rw [List.getD_eq_getElem?_getD, List.getD_eq_getElem?_getD, List.getElem?_drop]

/-- Element `i * n + j` of the flattened row-major buffer of a list of
rows of uniform length `n` is element `j` of row `i`. -/
lemma flatten_getD {α : Type} {n : ℕ} : ∀ (L : List (List α)) (_ : ∀ row ∈ L, row.length = n)
    {i j : ℕ} (_ : i < L.length) (_ : j < n) (d : α),
    L.flatten.getD (i * n + j) d = (L.getD i []).getD j d
  | [], _, i, _, hi, _, _ => by simp at hi
  | row :: rest, hL, 0, j, _, hj, d => by
    have hrow : row.length = n := hL row (by simp)
    rw [List.flatten_cons, getD_append_left d (by omega), List.getD_cons_zero]
    simp
  | row :: rest, hL, i + 1, j, hi, hj, d => by
    have hrow : row.length = n := hL row (by simp)
    have hidx : (i + 1) * n + j = row.length + (i * n + j) := by
      rw [hrow]; ring
    rw [List.flatten_cons, hidx, getD_append_right d (by omega), List.getD_cons_succ]
    have := flatten_getD rest (fun r hr => hL r (by simp [hr])) (i := i) (j := j)
      (by simpa using hi) hj d
    simpa using this

/-! ### Facts about `cache_memory` -/

lemma lastSlice_zero {α : Type} (l : List α) : lastSlice 0 l = l := by
  simp [lastSlice]

lemma lastSlice_of_ne_zero {α : Type} {m : ℕ} (hm : m ≠ 0) (l : List α) :
    lastSlice m l = l.drop (l.length - m) := by
  simp [lastSlice, hm]

lemma lastSlice_of_le {α : Type} {m : ℕ} {l : List α} (h : l.length ≤ m) :
    lastSlice m l = l := by
  rcases Nat.eq_zero_or_pos m with hm | hm
  · rw [hm, lastSlice_zero]
  · rw [lastSlice_of_ne_zero (by omega), Nat.sub_eq_zero_of_le h, List.drop_zero]

/-- `tf.concat(..., axis=1)` of shaped 3D tensors adds the time lengths. -/
lemma concatTime_shape {α : Type} {memory embeddings : List (List (List α))}
    {b mOld q h : ℕ} (hmem : isShape3 memory b mOld h)
    (hemb : isShape3 embeddings b q h) :
    isShape3 (concatTime memory embeddings) b (mOld + q) h := by
  obtain ⟨hml, hmr⟩ := hmem
  obtain ⟨hel, her⟩ := hemb
  constructor
  · simp [concatTime, List.length_zipWith, hml, hel]
  · intro M hM
    rw [List.mem_iff_getElem] at hM
    obtain ⟨i, hi, rfl⟩ := hM
    simp only [concatTime] at hi ⊢
    rw [List.getElem_zipWith]
    have hib : i < b := by
      simpa [List.length_zipWith, hml, hel] using hi
    have him : i < memory.length := by omega
    have hie : i < embeddings.length := by omega
    have h1 := hmr memory[i] (List.getElem_mem him)
    have h2 := her embeddings[i] (List.getElem_mem hie)
    obtain ⟨h1l, h1r⟩ := h1
    obtain ⟨h2l, h2r⟩ := h2
    constructor
    · simp [h1l, h2l]
    · intro row hrow
      rcases List.mem_append.mp hrow with hr | hr
      · exact h1r row hr
      · exact h2r row hr

/-- `cache_memory` with an explicit `m_seq_len` is the map of the
trailing slice over the time-axis concatenation (definitional). -/
lemma cache_memory_some {α : Type} (memory embeddings : List (List (List α))) (m : ℕ) :
    cache_memory memory embeddings (some m) =
      (concatTime memory embeddings).map (lastSlice m) := rfl

/-- Claim C9: with `m_seq_len = 0`, `cache_memory` returns the full
time-axis concatenation of `memory` and `embeddings` (time-length
`m_len_old + q_len`), not an empty tensor, because the trailing slice
with start index `-0` is the slice from index `0`. -/
theorem cache_memory_zero_full_concat {memory embeddings : List (List (List Int))}
    {b mOld q h : ℕ} (hmem : isShape3 memory b mOld h)
    (hemb : isShape3 embeddings b q h) :
    cache_memory memory embeddings (some 0) = concatTime memory embeddings ∧
    isShape3 (cache_memory memory embeddings (some 0)) b (mOld + q) h := by
  have heq : cache_memory memory embeddings (some 0) = concatTime memory embeddings := by
    rw [cache_memory_some, List.map_congr_left (fun l _ => lastSlice_zero l)]
    exact List.map_id _
  exact ⟨heq, heq ▸ concatTime_shape hmem hemb⟩

/-- Witness for `cache_memory_zero_full_concat` at concrete shaped inputs. -/
theorem cache_memory_zero_full_concat_witness :
    cache_memory ([[[5]]] : List (List (List Int))) [[[7]]] (some 0) =
      concatTime [[[5]]] [[[7]]] ∧
    isShape3 (cache_memory ([[[5]]] : List (List (List Int))) [[[7]]] (some 0)) 1 2 1 :=
  @cache_memory_zero_full_concat [[[5]]] [[[7]]] 1 1 1 1 (by decide) (by decide)

/-- Claim C3 as stated is false: with `m_seq_len = 0` (which is
non-negative and does not exceed `m_len_old + q_len = 2`), the result is
the full length-2 concatenation, not a tensor of shape `[1, 0, 1]`. -/
theorem cache_memory_window_cex :
    cache_memory ([[[5]]] : List (List (List Int))) [[[7]]] (some 0) = [[[5], [7]]] ∧
    ¬ isShape3 (cache_memory ([[[5]]] : List (List (List Int))) [[[7]]] (some 0)) 1 0 1 := by
  constructor
  · decide
  · decide

/-- Claim C3 (amended: for every positive `m_seq_len` not exceeding
`m_len_old + q_len`): `cache_memory` returns a tensor of shape
`[batch, m_seq_len, hidden]` equal to the last `m_seq_len` time steps of
the time-axis concatenation of `memory` followed by `embeddings`. -/
theorem cache_memory_window {memory embeddings : List (List (List Int))}
    {b mOld q h m : ℕ} (hmem : isShape3 memory b mOld h)
    (hemb : isShape3 embeddings b q h) (hm1 : 1 ≤ m) (hm2 : m ≤ mOld + q) :
    isShape3 (cache_memory memory embeddings (some m)) b m h ∧
    cache_memory memory embeddings (some m) =
      (concatTime memory embeddings).map (lastSteps m) := by
  have hcat := concatTime_shape hmem hemb
  obtain ⟨hcl, hcr⟩ := hcat
  have heq : cache_memory memory embeddings (some m) =
      (concatTime memory embeddings).map (lastSteps m) := by
    rw [cache_memory_some]
    refine List.map_congr_left (fun l _ => ?_)
    rw [lastSlice_of_ne_zero (by omega)]
    rfl
  refine ⟨?_, heq⟩
  rw [heq]
  constructor
  · simp [hcl]
  · intro M hM
    rw [List.mem_map] at hM
    obtain ⟨M', hM', rfl⟩ := hM
    obtain ⟨hl', hr'⟩ := hcr M' hM'
    constructor
    · rw [lastSteps, List.length_drop, hl']
      omega
    · intro row hrow
      exact hr' row (List.drop_subset _ _ hrow)

/-- Witness for `cache_memory_window`: the spec's example with
time-lengths 5 and 2 and `m_seq_len = 4`. -/
theorem cache_memory_window_witness :
    isShape3 (cache_memory ([[[1], [2], [3], [4], [5]]] : List (List (List Int)))
      [[[6], [7]]] (some 4)) 1 4 1 ∧
    cache_memory ([[[1], [2], [3], [4], [5]]] : List (List (List Int)))
      [[[6], [7]]] (some 4) =
      (concatTime [[[1], [2], [3], [4], [5]]] [[[6], [7]]]).map (lastSteps 4) :=
  @cache_memory_window [[[1], [2], [3], [4], [5]]] [[[6], [7]]] 1 5 2 1 4
    (by decide) (by decide) (by decide) (by decide)

/-- Claim C5: when `m_seq_len` strictly exceeds `m_len_old + q_len`,
`cache_memory` returns the full time-axis concatenation (time-length
`m_len_old + q_len`); the trailing slice clips to the available
length. -/
theorem cache_memory_clip {memory embeddings : List (List (List Int))}
    {b mOld q h m : ℕ} (hmem : isShape3 memory b mOld h)
    (hemb : isShape3 embeddings b q h) (hgt : mOld + q < m) :
    cache_memory memory embeddings (some m) = concatTime memory embeddings ∧
    isShape3 (cache_memory memory embeddings (some m)) b (mOld + q) h := by
  have hcat := concatTime_shape hmem hemb
  have heq : cache_memory memory embeddings (some m) = concatTime memory embeddings := by
    rw [cache_memory_some]
    have hfix : ∀ l ∈ concatTime memory embeddings, lastSlice m l = l := by
      intro l hl
      obtain ⟨hll, _⟩ := hcat.2 l hl
      exact lastSlice_of_le (by omega)
    rw [List.map_congr_left hfix]
    exact List.map_id _
  exact ⟨heq, heq ▸ hcat⟩

/-- Witness for `cache_memory_clip` at concrete shaped inputs with
`m_seq_len = 10 > 2`. -/
theorem cache_memory_clip_witness :
    cache_memory ([[[5]]] : List (List (List Int))) [[[7]]] (some 10) =
      concatTime [[[5]]] [[[7]]] ∧
    isShape3 (cache_memory ([[[5]]] : List (List (List Int))) [[[7]]] (some 10)) 1 2 1 :=
  @cache_memory_clip [[[5]]] [[[7]]] 1 1 1 1 10 (by decide) (by decide) (by decide)

/-- Claim C8: in the dual-number (forward-mode gradient) semantics, every
entry of the tensor returned by `cache_memory` has tangent `0`: no
gradient propagates backward through the returned tensor into `memory`
or `embeddings`. -/
theorem cache_memory_blocks_gradients (memory embeddings : List (List (List (Int × Int))))
    (mSeqLen : Option ℕ) :
    ∀ M ∈ cacheMemoryDual memory embeddings mSeqLen, ∀ row ∈ M, ∀ p ∈ row, p.2 = 0 := by
  intro M hM row hrow p hp
  unfold cacheMemoryDual stopGradientDual at hM
  rw [List.mem_map] at hM
  obtain ⟨M', _, rfl⟩ := hM
  rw [List.mem_map] at hrow
  obtain ⟨row', _, rfl⟩ := hrow
  rw [List.mem_map] at hp
  obtain ⟨p', _, rfl⟩ := hp
  rfl

/-- Witness for `cache_memory_blocks_gradients` at a concrete dual-number
input whose `memory` and `embeddings` carry nonzero tangents. -/
theorem cache_memory_blocks_gradients_witness :
    (((7 : Int), (0 : Int)).2 : Int) = 0 :=
  cache_memory_blocks_gradients [[[(5, 1)]]] [[[(7, 2)]]] (some 1)
    [[(7, 0)]] (by decide) [(7, 0)] (by decide) (7, 0) (by decide)

/-! ### Facts about `get_look_ahead_mask` -/

/-- `tf.linalg.band_part` on the all-ones `q × q` matrix is the 0/1
matrix of the in-band condition. -/
lemma bandPart_onesMat (lo up : Int) (q : ℕ) :
    bandPart lo up (onesMat q q) =
      (List.range q).map (fun (i : ℕ) => (List.range q).map (fun (j : ℕ) =>
        if (lo < 0 ∨ (i : Int) - (j : Int) ≤ lo) ∧ (up < 0 ∨ (j : Int) - (i : Int) ≤ up)
        then (1 : Int) else 0)) := by
  unfold bandPart onesMat
  simp only [List.length_replicate]
  refine List.map_congr_left (fun i hi => ?_)
  rw [List.mem_range] at hi
  rw [getD_replicate _ _ hi]
  simp only [List.length_replicate]
  refine List.map_congr_left (fun j hj => ?_)
  rw [List.mem_range] at hj
  rw [getD_replicate _ _ hj]

/-- The inner `q × (m + q)` matrix of the look-ahead mask: entry `(i, k)`
is `1` exactly when `k` points strictly beyond query position `i`
(`i + m < k`), else `0`. -/
lemma look_ahead_matrix_eq (q m : ℕ) :
    ((get_look_ahead_mask q m).getD 0 []).getD 0 [] =
      (List.range q).map (fun (i : ℕ) =>
        (List.range (m + q)).map (fun (k : ℕ) => if i + m < k then (1 : Int) else 0)) := by
  show concatCols (zerosMat q m)
      (matSub (bandPart 0 (-1) (onesMat q q)) (bandPart 0 0 (onesMat q q))) = _
  rw [bandPart_onesMat, bandPart_onesMat]
  unfold concatCols matSub zerosMat
  apply List.ext_getElem
  · simp [List.length_zipWith]
  · intro n h₁ h₂
    have hn : n < q := by
      simpa [List.length_zipWith] using h₁
    rw [List.getElem_zipWith, List.getElem_zipWith, List.getElem_replicate,
      List.getElem_map, List.getElem_range, List.getElem_map, List.getElem_map,
      List.getElem_range]
    apply List.ext_getElem
    · simp [List.length_zipWith]
    · intro k hk₁ hk₂
      have hk : k < m + q := by
        simpa [List.length_zipWith] using hk₂
      rw [List.getElem_map, List.getElem_range]
      rcases Nat.lt_or_ge k m with hkm | hkm
      · rw [List.getElem_append_left (by simpa using hkm), List.getElem_replicate]
        have hno : ¬ (n + m < k) := by omega
        simp [hno]
      · rw [List.getElem_append_right (by simpa using hkm)]
        simp only [List.length_replicate]
        rw [List.getElem_zipWith, List.getElem_map, List.getElem_range,
          List.getElem_map, List.getElem_range]
        split_ifs <;> omega

/-- `get_look_ahead_mask` written out as its `[1, 1, q, m + q]` array of
0/1 entries. -/
lemma look_ahead_eq (q m : ℕ) :
    get_look_ahead_mask q m =
      [[(List.range q).map (fun (i : ℕ) =>
        (List.range (m + q)).map (fun (k : ℕ) => if i + m < k then (1 : Int) else 0))]] := by
  rw [← look_ahead_matrix_eq]
  rfl

/-- Entry `(i, k)` of the look-ahead mask matrix. -/
lemma look_ahead_entry (q m : ℕ) {i k : ℕ} (hi : i < q) (hk : k < m + q) :
    ((((get_look_ahead_mask q m).getD 0 []).getD 0 []).getD i []).getD k 0 =
      if i + m < k then 1 else 0 := by
  rw [look_ahead_matrix_eq, getD_range_map _ _ hi, getD_range_map _ _ hk]

/-- Claim C2: `get_look_ahead_mask` returns a `[1, 1, q, m + q]` tensor of
0/1 values whose leftmost `m` columns are `0` and whose rightmost
`q × q` submatrix is strictly upper-triangular (`(i, c)` is `1` exactly
when `c > i`); for `q_seq_len = 2`, `m_seq_len = 3` the matrix is
`[[0,0,0,0,1],[0,0,0,0,0]]`. -/
theorem look_ahead_mask_spec (q m : ℕ) :
    isShape4 (get_look_ahead_mask q m) 1 1 q (m + q) ∧
    (∀ i < q, ∀ k < m + q,
      ((((get_look_ahead_mask q m).getD 0 []).getD 0 []).getD i []).getD k 0 = 0 ∨
      ((((get_look_ahead_mask q m).getD 0 []).getD 0 []).getD i []).getD k 0 = 1) ∧
    (∀ i < q, ∀ k < m,
      ((((get_look_ahead_mask q m).getD 0 []).getD 0 []).getD i []).getD k 0 = 0) ∧
    (∀ i < q, ∀ c < q,
      ((((get_look_ahead_mask q m).getD 0 []).getD 0 []).getD i []).getD (m + c) 0 =
        if i < c then 1 else 0) ∧
    get_look_ahead_mask 2 3 = [[[[0, 0, 0, 0, 1], [0, 0, 0, 0, 0]]]] := by
  refine ⟨?_, ?_, ?_, ?_, by decide⟩
  · rw [look_ahead_eq]
    refine ⟨rfl, ?_⟩
    intro u hu
    rw [List.mem_singleton] at hu
    subst hu
    refine ⟨rfl, ?_⟩
    intro M hM
    rw [List.mem_singleton] at hM
    subst hM
    constructor
    · simp
    · rw [List.forall_mem_map]
      intro j _
      simp
  · intro i hi k hk
    rw [look_ahead_entry q m hi hk]
    split_ifs <;> simp
  · intro i hi k hk
    rw [look_ahead_entry q m hi (by omega)]
    have hno : ¬ (i + m < k) := by omega
    simp [hno]
  · intro i hi c hc
    rw [look_ahead_entry q m hi (by omega)]
    split_ifs <;> omega

/-- Witness for `look_ahead_mask_spec` at `q_seq_len = 2`,
`m_seq_len = 3`: query row 0 is masked from query column 1. -/
theorem look_ahead_mask_spec_witness :
    ((((get_look_ahead_mask 2 3).getD 0 []).getD 0 []).getD 0 []).getD 4 0 = 1 := by
  have h := (look_ahead_mask_spec 2 3).2.2.2.1 0 (by norm_num) 1 (by norm_num)
  simpa using h

/-! ### Facts about `rel_shift` -/

/-- A `getD` at an in-range index is a member of the list. -/
lemma getD_mem {α : Type} {l : List α} {i : ℕ} (d : α) (h : i < l.length) :
    l.getD i d ∈ l := by
  rw [List.getD_eq_getElem _ _ h]
  exact List.getElem_mem h

/-- `flatten_getD` restated for an arbitrary in-range flat index `k`,
decomposed as `k / n`, `k % n`. -/
lemma flatten_getD_any {α : Type} {n : ℕ} (L : List (List α))
    (hL : ∀ row ∈ L, row.length = n) {k : ℕ} (hk : k < L.length * n) (d : α) :
    L.flatten.getD k d = (L.getD (k / n) []).getD (k % n) d := by
  have hn : 0 < n := by
    rcases Nat.eq_zero_or_pos n with h | h
    · rw [h, Nat.mul_zero] at hk
      omega
    · exact h
  have h1 : k / n < L.length := (Nat.div_lt_iff_lt_mul hn).mpr hk
  have h2 : k % n < n := Nat.mod_lt _ hn
  have hidx : k / n * n + k % n = k := by
    rw [Nat.mul_comm]
    exact Nat.div_add_mod k n
  have h := flatten_getD L hL h1 h2 d
  rw [hidx] at h
  exact h

/-- Reading the flat buffer of the `[r + 1, q]` reshape after dropping
its first row is reading the original buffer shifted by `q`. -/
lemma relShift_flat_step {q r : ℕ} (flat : List Int) {k : ℕ} (hk : k < r * q) :
    ((reshapeRows (r + 1) q flat).drop 1).flatten.getD k 0 = flat.getD (q + k) 0 := by
  have hq : 0 < q := by
    rcases Nat.eq_zero_or_pos q with h | h
    · rw [h, Nat.mul_zero] at hk
      omega
    · exact h
  have hrows : ∀ row ∈ (reshapeRows (r + 1) q flat).drop 1, row.length = q := by
    intro row hrow
    have hmem := List.drop_subset _ _ hrow
    unfold reshapeRows at hmem
    rw [List.mem_map] at hmem
    obtain ⟨a, _, rfl⟩ := hmem
    simp
  have hlen : ((reshapeRows (r + 1) q flat).drop 1).length = r := by
    simp [reshapeRows]
  rw [flatten_getD_any _ hrows (by rw [hlen]; exact hk) 0]
  have hdiv : k / q < r := (Nat.div_lt_iff_lt_mul hq).mpr hk
  rw [getD_drop]
  unfold reshapeRows
  rw [getD_range_map _ _ (by omega), getD_range_map _ _ (Nat.mod_lt _ hq)]
  congr 1
  have hmod : q * (k / q) + k % q = k := Nat.div_add_mod k q
  rw [Nat.add_mul, Nat.one_mul, Nat.mul_comm (k / q) q]
  omega

/-- Reading the flat buffer of the zero-column-padded matrix: position
`K` is `0` at the start of each padded row (`K % (r + 1) = 0`) and
otherwise the original entry one column to the left. -/
lemma padded_flatten_getD {q r : ℕ} {M : List (List Int)} (hq : M.length = q)
    (hr : ∀ row ∈ M, row.length = r) {K : ℕ} (hK : K < q * (r + 1)) :
    (M.map (fun row => (0 : Int) :: row)).flatten.getD K 0 =
      if K % (r + 1) = 0 then 0
      else (M.getD (K / (r + 1)) []).getD (K % (r + 1) - 1) 0 := by
  have hrows : ∀ row ∈ M.map (fun row => (0 : Int) :: row), row.length = r + 1 := by
    rw [List.forall_mem_map]
    intro row hrow
    simp [hr row hrow]
  rw [flatten_getD_any _ hrows (by rw [List.length_map, hq]; exact hK) 0]
  have hdivM : K / (r + 1) < M.length := by
    rw [hq]
    exact (Nat.div_lt_iff_lt_mul (by omega)).mpr hK
  rw [getD_map_of_lt _ [] [] hdivM]
  rcases hc : K % (r + 1) with _ | c
  · rw [List.getD_cons_zero, if_pos rfl]
  · rw [List.getD_cons_succ, if_neg (by omega)]
    simp

/-- On a well-formed `[q, r]` matrix, `rel_shift`'s per-slice operation
coincides with the claim's flat-buffer description. -/
lemma relShiftSlice_eq_spec {q r : ℕ} {M : List (List Int)} (hq : M.length = q)
    (hr : ∀ row ∈ M, row.length = r) :
    relShiftSlice M = relShiftSpecSlice q r M := by
  rcases Nat.eq_zero_or_pos q with hq0 | hq0
  · have hM : M = [] := List.length_eq_zero.mp (by omega)
    subst hM
    unfold relShiftSlice relShiftSpecSlice reshapeRows
    simp [hq0]
  · have h0 : 0 < M.length := by omega
    have hr0 : (M.getD 0 []).length = r := by
      rw [List.getD_eq_getElem _ _ h0]
      exact hr _ (List.getElem_mem h0)
    have hA : relShiftSlice M =
        reshapeRows q r (((reshapeRows (r + 1) q
          ((M.map (fun row => (0 : Int) :: row)).flatten)).drop 1).flatten) := by
      show reshapeRows M.length (M.getD 0 []).length
          (((reshapeRows ((M.getD 0 []).length + 1) M.length
            ((M.map (fun row => (0 : Int) :: row)).flatten)).drop 1).flatten) = _
      rw [hq, hr0]
    rw [hA]
    set S := ((reshapeRows (r + 1) q
      ((M.map (fun row => (0 : Int) :: row)).flatten)).drop 1).flatten with hS
    unfold relShiftSpecSlice reshapeRows
    refine List.map_congr_left (fun i hi => ?_)
    rw [List.mem_range] at hi
    refine List.map_congr_left (fun j hj => ?_)
    rw [List.mem_range] at hj
    have hk : i * r + j < r * q := by
      have h1 : i * r + j < (i + 1) * r := by
        rw [Nat.add_mul, Nat.one_mul]
        omega
      have h2 : (i + 1) * r ≤ q * r := Nat.mul_le_mul_right r (by omega)
      rw [Nat.mul_comm r q]
      omega
    rw [hS, relShift_flat_step _ hk]
    have hK : q + i * r + j < q * (r + 1) := by
      rw [Nat.mul_add, Nat.mul_one, Nat.mul_comm q r]
      omega
    rw [show q + (i * r + j) = q + i * r + j by omega]
    rw [padded_flatten_getD hq hr hK]

/-- `rel_shift`'s per-slice operation preserves the `[q, r]` shape. -/
lemma relShiftSlice_shape {q r : ℕ} {M : List (List Int)} (hq : M.length = q)
    (hr : ∀ row ∈ M, row.length = r) : isShape2 (relShiftSlice M) q r := by
  rw [relShiftSlice_eq_spec hq hr]
  unfold relShiftSpecSlice
  constructor
  · simp
  · rw [List.forall_mem_map]
    intro j _
    simp

/-- Claim C1: on every 4D tensor of shape `[batch, heads, q, r]`,
`rel_shift` returns a tensor of the same shape whose innermost slices
are given by the claim's flat-buffer mapping (prepend a zero column,
read the buffer as `r + 1` rows of length `q`, drop the first row,
reshape back to `[q, r]`); for the slice
`[[0,1,2],[3,4,5],[6,7,8],[9,10,11]]` the output is exactly
`[[0,3,4],[5,0,6],[7,8,0],[9,10,11]]`. -/
theorem rel_shift_spec :
    (∀ (b hd q r : ℕ) (t : List (List (List (List Int)))), isShape4 t b hd q r →
      isShape4 (rel_shift t) b hd q r ∧
      rel_shift t = t.map (fun u => u.map (relShiftSpecSlice q r))) ∧
    rel_shift [[[[0, 1, 2], [3, 4, 5], [6, 7, 8], [9, 10, 11]]]] =
      [[[[0, 3, 4], [5, 0, 6], [7, 8, 0], [9, 10, 11]]]] := by
  constructor
  · intro b hd q r t ht
    obtain ⟨htl, htr⟩ := ht
    constructor
    · refine ⟨by simp [rel_shift, htl], ?_⟩
      intro u hu
      rw [rel_shift, List.mem_map] at hu
      obtain ⟨u', hu', rfl⟩ := hu
      obtain ⟨hul, hur⟩ := htr u' hu'
      refine ⟨by simp [hul], ?_⟩
      intro M hM
      rw [List.mem_map] at hM
      obtain ⟨M', hM', rfl⟩ := hM
      obtain ⟨hml, hmr⟩ := hur M' hM'
      exact relShiftSlice_shape hml hmr
    · rw [rel_shift]
      refine List.map_congr_left (fun u hu => ?_)
      obtain ⟨hul, hur⟩ := htr u hu
      refine List.map_congr_left (fun M hM => ?_)
      obtain ⟨hml, hmr⟩ := hur M hM
      exact relShiftSlice_eq_spec hml hmr
  · decide

/-- Witness for `rel_shift_spec` at the docstring's `[1, 1, 4, 3]`
example tensor. -/
theorem rel_shift_spec_witness :
    isShape4 (rel_shift [[[[0, 1, 2], [3, 4, 5], [6, 7, 8], [9, 10, 11]]]]) 1 1 4 3 ∧
    rel_shift [[[[0, 1, 2], [3, 4, 5], [6, 7, 8], [9, 10, 11]]]] =
      [[[[0, 1, 2], [3, 4, 5], [6, 7, 8], [9, 10, 11]]]].map
        (fun u => u.map (relShiftSpecSlice 4 3)) :=
  rel_shift_spec.1 1 1 4 3 _ (by decide)

/-- Claim C10: `rel_shift` leaves the last row of each innermost slice
unchanged: for a `[b, hd, q, r]` tensor with `q ≥ 1`, entry
`(bi, hi, q - 1, c)` of the output equals the same entry of the
input. -/
theorem rel_shift_last_row_fixed {b hd q r : ℕ} {t : List (List (List (List Int)))}
    (ht : isShape4 t b hd q r) (hq1 : 1 ≤ q) :
    ∀ bi < b, ∀ hi < hd, ∀ c < r,
      ((((rel_shift t).getD bi []).getD hi []).getD (q - 1) []).getD c 0 =
        (((t.getD bi []).getD hi []).getD (q - 1) []).getD c 0 := by
  obtain ⟨htl, htr⟩ := ht
  intro bi hbi hi hhi c hc
  rw [rel_shift, getD_map_of_lt _ [] [] (by omega)]
  have hu := htr (t.getD bi []) (getD_mem [] (by omega))
  obtain ⟨hul, hur⟩ := hu
  rw [getD_map_of_lt _ [] [] (by omega)]
  have hM := hur ((t.getD bi []).getD hi []) (getD_mem [] (by omega))
  obtain ⟨hml, hmr⟩ := hM
  rw [relShiftSlice_eq_spec hml hmr]
  unfold relShiftSpecSlice
  rw [getD_range_map _ _ (by omega), getD_range_map _ _ hc]
  have hk : q + (q - 1) * r + c = (q - 1) * (r + 1) + (c + 1) := by
    rcases q with _ | q'
    · omega
    · simp only [Nat.succ_sub_one]
      ring
  show (if (q + (q - 1) * r + c) % (r + 1) = 0 then 0
    else (((t.getD bi []).getD hi []).getD ((q + (q - 1) * r + c) / (r + 1)) []).getD
      ((q + (q - 1) * r + c) % (r + 1) - 1) 0) = _
  rw [hk, show (q - 1) * (r + 1) + (c + 1) = (r + 1) * (q - 1) + (c + 1) by ring,
    Nat.mul_add_mod, Nat.mod_eq_of_lt (by omega),
    Nat.mul_add_div (by omega), Nat.div_eq_of_lt (by omega)]
  simp

/-- Witness for `rel_shift_last_row_fixed`: the last row `[9, 10, 11]`
of the docstring example is unchanged at column 0. -/
theorem rel_shift_last_row_fixed_witness :
    ((((rel_shift [[[[0, 1, 2], [3, 4, 5], [6, 7, 8], [9, 10, 11]]]]).getD 0 []).getD 0
      []).getD 3 []).getD 0 0 =
      ((([[[[(0 : Int), 1, 2], [3, 4, 5], [6, 7, 8], [9, 10, 11]]]].getD 0 []).getD 0
        []).getD 3 []).getD 0 0 :=
  @rel_shift_last_row_fixed 1 1 4 3 [[[[0, 1, 2], [3, 4, 5], [6, 7, 8], [9, 10, 11]]]]
    (by decide) (by decide) 0 (by decide) 0 (by decide) 0 (by decide)

/-! ### Facts about `get_positional_encoding` -/

lemma distancesList_length (s : ℕ) : (distancesList s).length = s := by
  unfold distancesList
  rw [List.length_map, List.length_range]

lemma anglesMat_length (s h : ℕ) : (anglesMat s h).length = s := by
  unfold anglesMat
  rw [List.length_map, distancesList_length]

lemma inverseFrequencies_length (h : ℕ) :
    (inverseFrequencies h).length = (h + 1) / 2 := by
  unfold inverseFrequencies
  rw [List.length_map, List.length_range]

/-- Row `i` of the positional encoding: the `sin` image of the angle row
followed by its `cos` image, over the inverse-frequency list. -/
lemma posenc_row (s h : ℕ) {i : ℕ} (hi : i < s) :
    (get_positional_encoding s h).getD i [] =
      ((inverseFrequencies h).map (fun f => Real.sin (((s : ℝ) - 1 - (i : ℝ)) * f))) ++
      ((inverseFrequencies h).map (fun f => Real.cos (((s : ℝ) - 1 - (i : ℝ)) * f))) := by
  have hAng : (anglesMat s h).length = s := anglesMat_length s h
  have hrow : (anglesMat s h).getD i [] =
      (inverseFrequencies h).map (fun f => ((s : ℝ) - 1 - (i : ℝ)) * f) := by
    unfold anglesMat
    rw [getD_map_of_lt _ [] 0 (by rw [distancesList_length]; omega)]
    unfold distancesList
    rw [getD_range_map _ _ hi]
  unfold get_positional_encoding
  rw [getD_zipWith _ [] [] []
    (by rw [List.length_map, hAng]; omega) (by rw [List.length_map, hAng]; omega)]
  rw [getD_map_of_lt _ [] [] (by omega), getD_map_of_lt _ [] [] (by omega)]
  rw [hrow, List.map_map, List.map_map]
  rfl

/-- Entry `(i, j)` of the positional encoding for even `hidden_size`:
the `sin` of the angle for `j` in the left half, the `cos` of the angle
for `j - h / 2` in the right half. -/
lemma posenc_entry (s h : ℕ) {i j : ℕ} (hi : i < s) (hhe : Even h) (hj : j < h) :
    ((get_positional_encoding s h).getD i []).getD j 0 =
      if j < h / 2 then
        Real.sin (((s : ℝ) - 1 - (i : ℝ)) *
          (1 / (10000 : ℝ) ^ ((2 * (j : ℝ)) / (h : ℝ))))
      else
        Real.cos (((s : ℝ) - 1 - (i : ℝ)) *
          (1 / (10000 : ℝ) ^ ((2 * (((j - h / 2 : ℕ)) : ℝ)) / (h : ℝ)))) := by
  have h2 : (h + 1) / 2 = h / 2 := by
    obtain ⟨k, hk⟩ := hhe
    omega
  have hlen : ((inverseFrequencies h).map
      (fun f => Real.sin (((s : ℝ) - 1 - (i : ℝ)) * f))).length = h / 2 := by
    rw [List.length_map, inverseFrequencies_length, h2]
  rw [posenc_row s h hi]
  split_ifs with hcase
  · rw [getD_append_left 0 (by omega)]
    unfold inverseFrequencies
    rw [List.map_map]
    have hj2 : j < (h + 1) / 2 := by omega
    have := getD_range_map (n := (h + 1) / 2)
      ((fun f => Real.sin (((s : ℝ) - 1 - (i : ℝ)) * f)) ∘
        (fun j => 1 / (10000 : ℝ) ^ ((2 * (j : ℝ)) / (h : ℝ)))) 0 hj2
    exact this
  · rw [getD_append_right 0 (by omega), hlen]
    unfold inverseFrequencies
    rw [List.map_map]
    have hj2 : j - h / 2 < (h + 1) / 2 := by
      obtain ⟨k, hk⟩ := hhe
      omega
    have := getD_range_map (n := (h + 1) / 2)
      ((fun f => Real.cos (((s : ℝ) - 1 - (i : ℝ)) * f)) ∘
        (fun j => 1 / (10000 : ℝ) ^ ((2 * (j : ℝ)) / (h : ℝ)))) 0 hj2
    exact this

/-- Claim C4: for positive `seq_len` and positive even `hidden_size`,
`get_positional_encoding` returns a `[seq_len, hidden_size]` array equal
to the column-wise concatenation `[sin(angle), cos(angle)]` with
`angle[i, j] = (seq_len - 1 - i) * (1 / 10000 ^ (2 j / hidden_size))`. -/
theorem positional_encoding_formula (s h : ℕ) (hs : 0 < s) (hh : 0 < h)
    (hhe : Even h) :
    (get_positional_encoding s h).length = s ∧
    (∀ i < s, ((get_positional_encoding s h).getD i []).length = h) ∧
    (∀ i < s, ∀ j < h,
      ((get_positional_encoding s h).getD i []).getD j 0 =
        if j < h / 2 then
          Real.sin (((s : ℝ) - 1 - (i : ℝ)) *
            (1 / (10000 : ℝ) ^ ((2 * (j : ℝ)) / (h : ℝ))))
        else
          Real.cos (((s : ℝ) - 1 - (i : ℝ)) *
            (1 / (10000 : ℝ) ^ ((2 * (((j - h / 2 : ℕ)) : ℝ)) / (h : ℝ))))) := by
  refine ⟨?_, ?_, ?_⟩
  · unfold get_positional_encoding
    rw [List.length_zipWith, List.length_map, List.length_map, anglesMat_length,
      Nat.min_self]
  · intro i hi
    rw [posenc_row s h hi, List.length_append, List.length_map, List.length_map,
      inverseFrequencies_length]
    obtain ⟨k, hk⟩ := hhe
    omega
  · intro i hi j hj
    exact posenc_entry s h hi hhe hj

/-- Witness for `positional_encoding_formula` at `seq_len = 2`,
`hidden_size = 2`: row 0 has distance 1, so its `cos` entry is
`cos 1`. -/
theorem positional_encoding_formula_witness :
    (get_positional_encoding 2 2).length = 2 ∧
    ((get_positional_encoding 2 2).getD 0 []).length = 2 ∧
    ((get_positional_encoding 2 2).getD 0 []).getD 1 0 = Real.cos 1 := by
  have h := positional_encoding_formula 2 2 (by norm_num) (by norm_num) (by decide)
  refine ⟨h.1, h.2.1 0 (by norm_num), ?_⟩
  have he := h.2.2 0 (by norm_num) 1 (by norm_num)
  rw [he]
  norm_num [Real.rpow_zero]

/-- Claim C7: for positive `seq_len` and positive even `hidden_size`,
row `seq_len - 1` (distance 0) of the positional encoding has its `sin`
half all `0` and its `cos` half all `1`. -/
theorem positional_encoding_zero_distance_row (s h : ℕ) (hs : 0 < s) (hh : 0 < h)
    (hhe : Even h) :
    ∀ j < h, ((get_positional_encoding s h).getD (s - 1) []).getD j 0 =
      if j < h / 2 then 0 else 1 := by
  intro j hj
  rw [posenc_entry s h (by omega) hhe hj]
  have hd : (s : ℝ) - 1 - ((s - 1 : ℕ) : ℝ) = 0 := by
    rw [Nat.cast_sub (by omega)]
    push_cast
    ring
  rw [hd]
  split_ifs <;> simp

/-- Witness for `positional_encoding_zero_distance_row` at `seq_len = 1`,
`hidden_size = 2`. -/
theorem positional_encoding_zero_distance_row_witness :
    ((get_positional_encoding 1 2).getD 0 []).getD 0 0 = 0 ∧
    ((get_positional_encoding 1 2).getD 0 []).getD 1 0 = 1 := by
  have h := positional_encoding_zero_distance_row 1 2 (by norm_num) (by norm_num)
    (by decide)
  constructor
  · have h0 := h 0 (by norm_num)
    simpa using h0
  · have h1 := h 1 (by norm_num)
    simpa using h1

/-- Claim C6 as stated is false: at odd `hidden_size = 1` (with
`seq_len = 1`) the `sin` half and the `cos` half have the same width
(both `1` column), the concatenation succeeds, and the result is a
`[1, 2]` array — no shape-mismatch failure occurs. -/
theorem positional_encoding_odd_cex :
    (((anglesMat 1 1).map (List.map Real.sin)).getD 0 []).length =
      (((anglesMat 1 1).map (List.map Real.cos)).getD 0 []).length ∧
    (get_positional_encoding 1 1).length = 1 ∧
    ((get_positional_encoding 1 1).getD 0 []).length = 2 := by
  refine ⟨?_, ?_, ?_⟩
  · rw [getD_map_of_lt _ [] [] (by rw [anglesMat_length]; norm_num),
      getD_map_of_lt _ [] [] (by rw [anglesMat_length]; norm_num),
      List.length_map, List.length_map]
  · unfold get_positional_encoding
    rw [List.length_zipWith, List.length_map, List.length_map, anglesMat_length,
      Nat.min_self]
  · rw [posenc_row 1 1 (by norm_num), List.length_append, List.length_map,
      List.length_map, inverseFrequencies_length]

/-- Claim C6 (amended): for every odd `hidden_size`, the `sin` and `cos`
halves both have width `(hidden_size + 1) / 2`, so the concatenation
succeeds and `get_positional_encoding` returns a
`[seq_len, hidden_size + 1]` array instead of failing. -/
theorem positional_encoding_odd_width (s h : ℕ) (hodd : Odd h) :
    (get_positional_encoding s h).length = s ∧
    ∀ i < s, ((get_positional_encoding s h).getD i []).length = h + 1 := by
  constructor
  · unfold get_positional_encoding
    rw [List.length_zipWith, List.length_map, List.length_map, anglesMat_length,
      Nat.min_self]
  · intro i hi
    rw [posenc_row s h hi, List.length_append, List.length_map, List.length_map,
      inverseFrequencies_length]
    obtain ⟨k, hk⟩ := hodd
    omega

/-- Witness for `positional_encoding_odd_width` at `seq_len = 1`,
`hidden_size = 1`. -/
theorem positional_encoding_odd_width_witness :
    (get_positional_encoding 1 1).length = 1 ∧
    ((get_positional_encoding 1 1).getD 0 []).length = 2 := by
  have h := positional_encoding_odd_width 1 1 ⟨0, by norm_num⟩
  exact ⟨h.1, h.2 0 (by norm_num)⟩
